import Mathlib

/-!
Verification development for the fast-slic core (src/fast-slic.cpp).

The C sources are shallowly embedded: machine integers are modelled as `Nat`
with explicit `% 2^w` at the points where the C code's fixed width matters
(unsigned wrap-around on casts and shifts), images and label buffers are
modelled as functions from flat row-major indices to `Nat`, and the stateful
loops are modelled as left folds over the exact index lists the loops visit.
-/

namespace FastSlic

/-- Natural-number distance `|a - b|`, the embedding of `fast_abs(a - b)` on
integer operands (truncated subtraction in both directions, added). -/
def ndist (a b : Nat) : Nat := (a - b) + (b - a)

/-- Modelled from the spec: the `Cluster` record of `fast-slic-common.h`,
which is not under `src/` (§3 of the spec: `number` is a 16-bit identifier,
`y`, `x` are 16-bit signed pixel coordinates, `r`, `g`, `b` are 8-bit color
components, `num_members` is a 32-bit count).  All fields are modelled as
`Nat`; the finite machine widths are imposed as hypotheses where the code's
behaviour depends on them. -/
structure Cluster where
  number : Nat
  y : Nat
  x : Nat
  r : Nat
  g : Nat
  b : Nat
  num_members : Nat
deriving DecidableEq

/-- Row-major flat indices `W * i + j` of all pixels of an `H × W` image, in
the order the C double loops visit them. -/
def pixels (H W : Nat) : List Nat :=
  (List.range H).flatMap (fun i => (List.range W).map (fun j => W * i + j))

/-- Color L1 distance between the pixel at `base_index` of the flat RGB byte
buffer `image` and a cluster's color centroid, as computed inside
`get_assignment_value`. -/
def colorL1 (image : Nat → Nat) (base_index : Nat) (c : Cluster) : Nat :=
  ndist (image (3 * base_index)) c.r + ndist (image (3 * base_index + 1)) c.g +
    ndist (image (3 * base_index + 2)) c.b

/-- Embedding of `get_assignment_value` (src/fast-slic.cpp:8-13).  The color
L1 distance is shifted left by `quantize_level` and stored into a `uint16_t`
(truncation `% 65536`); the sum with the 16-bit spatial distance is shifted
left by 16 in `uint32_t` arithmetic and the cluster number is added, both
wrapping `% 4294967296`. -/
def get_assignment_value (c : Cluster) (image : Nat → Nat)
    (base_index spatial_dist quantize_level : Nat) : Nat :=
  (((colorL1 image base_index c <<< quantize_level) % 65536 + spatial_dist) <<< 16
      % 4294967296 + c.number) % 4294967296

/-- Score packing as the claim words it: color cost and spatial cost clamped
to `0xFFFF` individually, their sum clamped to `0xFFFF`, then packed above the
cluster number.  Stated from the spec's words for comparison with
`get_assignment_value`; the source does not clamp. -/
def spec_clamped_packed (c : Cluster) (image : Nat → Nat)
    (base_index spatial_dist quantize_level : Nat) : Nat :=
  min 65535 (min 65535 (colorL1 image base_index c <<< quantize_level) +
      min 65535 spatial_dist) * 65536 + c.number

/-- Helper: what `get_assignment_value` actually computes, as a single
truncation of the score modulo `2^16` packed above the cluster number. -/
lemma get_assignment_value_eq (c : Cluster) (image : Nat → Nat)
    (base_index spatial_dist quantize_level : Nat)
    (hn : c.number < 65536) :
    get_assignment_value c image base_index spatial_dist quantize_level =
      (((colorL1 image base_index c <<< quantize_level) % 65536 + spatial_dist) % 65536)
        * 65536 + c.number := by
  unfold get_assignment_value
  rw [Nat.shiftLeft_eq _ 16]
  have hx : (colorL1 image base_index c <<< quantize_level) % 65536 < 65536 :=
    Nat.mod_lt _ (by omega)
  set x := (colorL1 image base_index c <<< quantize_level) % 65536 with hxdef
  norm_num
  omega

/-- Cluster used in the saturation counterexample: white centroid, number 0. -/
def cWhite : Cluster := ⟨0, 0, 0, 255, 255, 255, 0⟩

/-- Claim C3 counterexample: at a black pixel against the white centroid
`cWhite` with `quantize_level = 7` and spatial cost 9, the packed candidate
produced by `get_assignment_value` differs from the individually-and-jointly
clamped packing the claim describes: the shifted color cost `765 << 7 = 97920`
wraps to `32384` modulo `2^16` instead of saturating at `0xFFFF`. -/
theorem assignment_value_not_clamped_cex :
    get_assignment_value cWhite (fun _ => 0) 0 9 7 ≠
      spec_clamped_packed cWhite (fun _ => 0) 0 9 7 ∧
    get_assignment_value cWhite (fun _ => 0) 0 9 7 = 32393 * 65536 ∧
    spec_clamped_packed cWhite (fun _ => 0) 0 9 7 = 65535 * 65536 := by
  refine ⟨by decide, by decide, by decide⟩

/-- Claim C3 (amended): the assignment kernel does not clamp; the shifted
color cost is truncated modulo `2^16` by the `uint16_t` store and the sum
with the spatial cost is truncated modulo `2^16` when packed into the high
16 bits of the candidate word: the candidate equals
`(((colorL1 << quantize_level) mod 2^16) + spatial_dist) mod 2^16` packed
above the cluster number.  Scores wrap rather than saturate. -/
theorem assignment_value_wraps (c : Cluster) (image : Nat → Nat)
    (base_index spatial_dist quantize_level : Nat)
    (hn : c.number < 65536) (hs : spatial_dist < 65536) :
    get_assignment_value c image base_index spatial_dist quantize_level =
      (((colorL1 image base_index c <<< quantize_level) % 65536 + spatial_dist) % 65536)
        * 65536 + c.number :=
  get_assignment_value_eq c image base_index spatial_dist quantize_level hn

/-- Witness for `assignment_value_wraps` at a concrete cluster and pixel. -/
theorem assignment_value_wraps_witness :
    get_assignment_value cWhite (fun _ => 0) 0 9 7 =
      (((colorL1 (fun _ => 0) 0 cWhite <<< 7) % 65536 + 9) % 65536) * 65536 +
        cWhite.number :=
  assignment_value_wraps cWhite (fun _ => 0) 0 9 7 (by decide) (by decide)

/-- Column indices of a cluster's scan window, as the two inner loops of
`slic_assign_cluster_oriented` visit them: `j` from `x_lo` up to `cx`, then
`j` from `cx` up to `x_hi` (src/fast-slic.cpp:70-85). -/
def windowCols (cx lo hi : Nat) : List Nat :=
  List.range' lo (cx - lo) ++ List.range' cx (hi - cx)

/-- Row indices of a cluster's scan window, as the two outer loops visit
them: `i` from `y_lo` up to `cy`, then `i` from `cy` up to `y_hi`
(src/fast-slic.cpp:67-107). -/
def windowRows (cy lo hi : Nat) : List Nat :=
  List.range' lo (cy - lo) ++ List.range' cy (hi - cy)

/-- All `(i, j)` pixel coordinates of a cluster's clipped scan window
`[max(0, cy - S), min(H, cy + S + 1)) × [max(0, cx - S), min(W, cx + S + 1))`
in loop order.  Truncated `Nat` subtraction renders the `my_max(0, ·)`
clipping of the C code. -/
def clusterWindow (H W S : Nat) (c : Cluster) : List (Nat × Nat) :=
  (windowRows c.y (c.y - S) (min H (c.y + S + 1))).flatMap (fun i =>
    (windowCols c.x (c.x - S) (min W (c.x + S + 1))).map (fun j => (i, j)))

/-- Candidate word the kernel computes for cluster `c` at pixel `(i, j)`.
The running Manhattan counters of the source
(`current_manhattan--`/`current_manhattan++` starting from
`row_first_manhattan`) index the spatial cache at exactly
`|i - cy| + |j - cx|`. -/
def candidate (image cache : Nat → Nat) (q W : Nat) (c : Cluster) (i j : Nat) : Nat :=
  get_assignment_value c image (W * i + j) (cache (ndist i c.y + ndist j c.x)) q

/-- One cluster's pass over its window: every visited pixel's assignment word
is lowered to the candidate if the candidate is smaller
(`if (assignment[base_index] > assignment_val) assignment[base_index] = assignment_val`). -/
def assignOne (image cache : Nat → Nat) (q W H S : Nat) (a : Nat → Nat)
    (c : Cluster) : Nat → Nat :=
  (clusterWindow H W S c).foldl
    (fun acc ij => fun p =>
      if p = W * ij.1 + ij.2 then
        min (acc p) (candidate image cache q W c ij.1 ij.2)
      else acc p)
    a

/-- The whole assignment sweep over a list of clusters, starting from the
all-`0xFFFFFFFF` initialization.  The source processes the clusters in
Morton-sorted order; the embedding takes the processing order as an explicit
list and the theorems hold for every order. -/
def slic_assign_pass (image cache : Nat → Nat) (q W H S : Nat)
    (cs : List Cluster) : Nat → Nat :=
  cs.foldl (assignOne image cache q W H S) (fun _ => 4294967295)

/-- Embedding of `slic_assign_cluster_oriented` (src/fast-slic.cpp:15-126):
initialization to `0xFFFFFFFF`, the per-cluster window sweeps, then the
clean-up pass `assignment[p] &= 0x0000FFFF`. -/
def slic_assign_cluster_oriented (image cache : Nat → Nat) (q W H S : Nat)
    (cs : List Cluster) : Nat → Nat :=
  fun p => slic_assign_pass image cache q W H S cs p % 65536

/-- Window membership predicate of the claim: pixel `(i, j)` lies inside the
window `[cy - S, cy + S] × [cx - S, cx + S]` of cluster `c` (with the lower
bounds clipped at 0 by `Nat` subtraction). -/
def covers (S : Nat) (c : Cluster) (i j : Nat) : Bool :=
  decide (c.y - S ≤ i ∧ i ≤ c.y + S ∧ c.x - S ≤ j ∧ j ≤ c.x + S)

/-- Wrapped 16-bit score of cluster `c` at pixel `(i, j)`: the high half of
the candidate word that `get_assignment_value` actually packs. -/
def wscore (image cache : Nat → Nat) (q W : Nat) (c : Cluster) (i j : Nat) : Nat :=
  ((colorL1 image (W * i + j) c <<< q) % 65536 + cache (ndist i c.y + ndist j c.x)) % 65536

/-- Score of cluster `c` at pixel `(i, j)` as claim C1 words it: exact
shifted color L1 distance plus the cached spatial cost (with the clamping of
the claim's companion saturation requirement). -/
def spec_clamped_score (image cache : Nat → Nat) (q W : Nat) (c : Cluster)
    (i j : Nat) : Nat :=
  min 65535 (min 65535 (colorL1 image (W * i + j) c <<< q) +
    min 65535 (cache (ndist i c.y + ndist j c.x)))

/-- Helper: a row-major index determines its coordinates when both column
indices are in range. -/
lemma index_inj {W i j i' j' : Nat} (hj : j < W) (hj' : j' < W)
    (h : W * i + j = W * i' + j') : i = i' ∧ j = j' := by
  have hW : 0 < W := by omega
  have h1 : (W * i + j) / W = i := by
    rw [Nat.mul_add_div hW, Nat.div_eq_of_lt hj, Nat.add_zero]
  have h2 : (W * i' + j') / W = i' := by
    rw [Nat.mul_add_div hW, Nat.div_eq_of_lt hj', Nat.add_zero]
  have h3 : (W * i + j) % W = j := by rw [Nat.mul_add_mod, Nat.mod_eq_of_lt hj]
  have h4 : (W * i' + j') % W = j' := by rw [Nat.mul_add_mod, Nat.mod_eq_of_lt hj']
  exact ⟨by rw [← h1, h, h2], by rw [← h3, h, h4]⟩

/-- Helper: the split column scan is the contiguous range when the center is
inside the clipped bounds. -/
lemma windowCols_eq (cx lo hi : Nat) (h1 : lo ≤ cx) (h2 : cx ≤ hi) :
    windowCols cx lo hi = List.range' lo (hi - lo) := by
  unfold windowCols
  have h := List.range'_append lo (cx - lo) (hi - cx) 1
  simp only [one_mul] at h
  rw [show lo + (cx - lo) = cx by omega] at h
  rw [h, show hi - cx + (cx - lo) = hi - lo by omega]

/-- Helper: the split row scan is the contiguous range when the center is
inside the clipped bounds. -/
lemma windowRows_eq (cy lo hi : Nat) (h1 : lo ≤ cy) (h2 : cy ≤ hi) :
    windowRows cy lo hi = List.range' lo (hi - lo) :=
  windowCols_eq cy lo hi h1 h2

/-- Helper: membership in a cluster's scan window, for an in-range centroid. -/
lemma mem_clusterWindow {H W S : Nat} {c : Cluster} (hy : c.y < H) (hx : c.x < W)
    {i j : Nat} :
    (i, j) ∈ clusterWindow H W S c ↔
      (c.y - S ≤ i ∧ i < min H (c.y + S + 1) ∧
        c.x - S ≤ j ∧ j < min W (c.x + S + 1)) := by
  unfold clusterWindow
  rw [windowRows_eq _ _ _ (by omega) (by omega), windowCols_eq _ _ _ (by omega) (by omega)]
  simp only [List.mem_flatMap, List.mem_map, List.mem_range'_1, Prod.mk.injEq]
  constructor
  · rintro ⟨a, ⟨ha1, ha2⟩, b, ⟨hb1, hb2⟩, rfl, rfl⟩
    omega
  · rintro ⟨h1, h2, h3, h4⟩
    exact ⟨i, by omega, j, by omega, rfl, rfl⟩

/-- Helper: every pixel of a window has an in-range column when the centroid
column is in range. -/
lemma clusterWindow_col_lt {H W S : Nat} {c : Cluster} (hy : c.y < H) (hx : c.x < W) :
    ∀ pr ∈ clusterWindow H W S c, pr.2 < W := by
  rintro ⟨i, j⟩ hpr
  have := (mem_clusterWindow hy hx).mp hpr
  omega

/-- Helper: effect of folding per-pixel minimum updates over a list of pixel
coordinates, read off at one in-range pixel. -/
lemma foldl_minUpdate_apply (f : Nat × Nat → Nat) (W : Nat) :
    ∀ (l : List (Nat × Nat)) (a : Nat → Nat) (i j : Nat), j < W →
      (∀ pr ∈ l, pr.2 < W) →
      (l.foldl (fun acc ij => fun p =>
          if p = W * ij.1 + ij.2 then min (acc p) (f ij) else acc p) a) (W * i + j) =
        if (i, j) ∈ l then min (a (W * i + j)) (f (i, j)) else a (W * i + j) := by
  intro l
  induction l with
  | nil => simp
  | cons pr rest ih =>
    intro a i j hj hl
    rw [List.foldl_cons, ih _ i j hj (fun x hx => hl x (List.mem_cons_of_mem _ hx))]
    by_cases hpr : (i, j) = pr
    · subst hpr
      by_cases hmem : (i, j) ∈ rest
      · rw [if_pos hmem, if_pos (List.mem_cons_self _ _), if_pos rfl,
          Nat.min_assoc, Nat.min_self]
      · rw [if_neg hmem, if_pos (List.mem_cons_self _ _), if_pos rfl]
    · have hne : W * i + j ≠ W * pr.1 + pr.2 := by
        intro h
        have := index_inj hj (hl pr (List.mem_cons_self _ _)) h
        exact hpr (by obtain ⟨h1, h2⟩ := this; subst h1; subst h2; rfl)
      rw [if_neg hne]
      by_cases hmem : (i, j) ∈ rest
      · rw [if_pos hmem, if_pos (List.mem_cons_of_mem _ hmem)]
      · rw [if_neg hmem, if_neg (by simp [List.mem_cons, hpr, hmem])]

/-- Helper: one cluster's window sweep, read off at an in-range pixel, lowers
that pixel to the cluster's candidate exactly when the window covers it. -/
lemma assignOne_apply (image cache : Nat → Nat) (q W H S : Nat) (a : Nat → Nat)
    (c : Cluster) (hy : c.y < H) (hx : c.x < W) (i j : Nat) (hi : i < H) (hj : j < W) :
    assignOne image cache q W H S a c (W * i + j) =
      if covers S c i j = true then
        min (a (W * i + j)) (candidate image cache q W c i j)
      else a (W * i + j) := by
  unfold assignOne
  rw [foldl_minUpdate_apply _ W _ a i j hj (clusterWindow_col_lt hy hx)]
  have hiff : ((i, j) ∈ clusterWindow H W S c) ↔ (covers S c i j = true) := by
    rw [mem_clusterWindow hy hx]
    unfold covers
    rw [decide_eq_true_iff]
    omega
  by_cases hmem : (i, j) ∈ clusterWindow H W S c
  · rw [if_pos hmem, if_pos (hiff.mp hmem)]
  · rw [if_neg hmem, if_neg (fun h => hmem (hiff.mpr h))]

/-- Helper: the whole sweep, read off at an in-range pixel, is the fold of
`min` over the candidates of the clusters whose window covers the pixel. -/
lemma foldl_assignOne_apply (image cache : Nat → Nat) (q W H S : Nat) :
    ∀ (cs : List Cluster) (a : Nat → Nat) (i j : Nat),
      (∀ c ∈ cs, c.y < H ∧ c.x < W) → i < H → j < W →
      (cs.foldl (assignOne image cache q W H S) a) (W * i + j) =
        ((cs.filter (fun c => covers S c i j)).map
            (fun c => candidate image cache q W c i j)).foldl min (a (W * i + j)) := by
  intro cs
  induction cs with
  | nil => simp
  | cons c rest ih =>
    intro a i j hcs hi hj
    rw [List.foldl_cons,
      ih _ i j (fun x hx => hcs x (List.mem_cons_of_mem _ hx)) hi hj,
      assignOne_apply image cache q W H S a c (hcs c (List.mem_cons_self _ _)).1
        (hcs c (List.mem_cons_self _ _)).2 i j hi hj]
    by_cases hc : covers S c i j = true
    · rw [if_pos hc]
      have hfil : (c :: rest).filter (fun c => covers S c i j) =
          c :: rest.filter (fun c => covers S c i j) := by
        simp [List.filter_cons, hc]
      rw [hfil, List.map_cons, List.foldl_cons]
    · rw [if_neg hc]
      have hcf : covers S c i j = false := by simpa using hc
      have hfil : (c :: rest).filter (fun c => covers S c i j) =
          rest.filter (fun c => covers S c i j) := by
        simp [List.filter_cons, hcf]
      rw [hfil]

/-- Helper: a fold of `min` never exceeds its initial value. -/
lemma foldl_min_le_init : ∀ (l : List Nat) (I : Nat), l.foldl min I ≤ I := by
  intro l
  induction l with
  | nil => simp
  | cons x rest ih =>
    intro I
    calc rest.foldl min (min I x) ≤ min I x := ih _
    _ ≤ I := Nat.min_le_left _ _

/-- Helper: a fold of `min` is bounded by every list element. -/
lemma foldl_min_le_mem : ∀ (l : List Nat) (I y : Nat), y ∈ l → l.foldl min I ≤ y := by
  intro l
  induction l with
  | nil => simp
  | cons x rest ih =>
    intro I y hy
    rcases List.mem_cons.mp hy with rfl | hy
    · calc rest.foldl min (min I y) ≤ min I y := foldl_min_le_init _ _
      _ ≤ y := Nat.min_le_right _ _
    · exact ih _ y hy

/-- Helper: a fold of `min` equals the initial value or some list element. -/
lemma foldl_min_eq_init_or_mem :
    ∀ (l : List Nat) (I : Nat), l.foldl min I = I ∨ l.foldl min I ∈ l := by
  intro l
  induction l with
  | nil => simp
  | cons x rest ih =>
    intro I
    rw [List.foldl_cons]
    rcases ih (min I x) with h | h
    · rcases Nat.le_total I x with hle | hle
      · left; rw [h]; omega
      · right; rw [h]; simp [List.mem_cons]; omega
    · right; exact List.mem_cons_of_mem _ h


/-- Helper: on a nonempty list bounded by the initial value, a fold of `min`
is attained at some list element that is minimal. -/
lemma foldl_min_spec (l : List Nat) (I : Nat) (hne : l ≠ [])
    (hub : ∀ y ∈ l, y ≤ I) :
    ∃ x ∈ l, l.foldl min I = x ∧ ∀ y ∈ l, x ≤ y := by
  rcases foldl_min_eq_init_or_mem l I with h | h
  · obtain ⟨y0, hy0⟩ := List.exists_mem_of_ne_nil l hne
    have h1 := foldl_min_le_mem l I y0 hy0
    have h2 := hub y0 hy0
    have hy0eq : l.foldl min I = y0 := by omega
    exact ⟨y0, hy0, hy0eq, fun y hy => hy0eq ▸ foldl_min_le_mem l I y hy⟩
  · exact ⟨l.foldl min I, h, rfl, fun y hy => foldl_min_le_mem l I y hy⟩

/-- Helper: comparison of packed words is lexicographic on (score, number). -/
lemma packed_le_iff (w n w' n' : Nat) (hn : n < 65536) (hn' : n' < 65536) :
    w * 65536 + n ≤ w' * 65536 + n' ↔ (w < w' ∨ (w = w' ∧ n ≤ n')) := by
  constructor <;> intro h <;> [skip; omega]
  by_cases hw : w < w'
  · exact Or.inl hw
  · right
    constructor <;> omega

/-- Helper: the candidate word decomposes into the wrapped score packed above
the cluster number. -/
lemma candidate_decompose (image cache : Nat → Nat) (q W : Nat) (c : Cluster)
    (i j : Nat) (hn : c.number < 65536) :
    candidate image cache q W c i j = wscore image cache q W c i j * 65536 + c.number :=
  get_assignment_value_eq c image (W * i + j) (cache (ndist i c.y + ndist j c.x)) q hn

/-- Claim C1 (amended): after the assignment step, for every pixel `(i, j)`
inside the window `[cy - S, cy + S] × [cx - S, cx + S]` of at least one
cluster, the low 16 bits of the assignment word hold the number of the
cluster that minimizes the **wrapped** score
`((colorL1 << quantize_level) mod 2^16 + spatial_cost) mod 2^16` over all
clusters whose window covers the pixel, with ties between equal wrapped
scores resolved in favor of the smaller cluster number; every pixel covered
by no window holds the sentinel `0xFFFF`.  (The original claim's exact score
`(colorL1 << quantize_level) + spatial_cost` is refuted by
`assign_not_spec_argmin_cex`: the shift wraps modulo `2^16`.) -/
theorem assign_argmin_wrapped (image cache : Nat → Nat) (q W H S : Nat)
    (cs : List Cluster)
    (hnum : ∀ c ∈ cs, c.number < 65536)
    (hin : ∀ c ∈ cs, c.y < H ∧ c.x < W)
    (i j : Nat) (hi : i < H) (hj : j < W) :
    (cs.filter (fun c => covers S c i j) = [] →
      slic_assign_cluster_oriented image cache q W H S cs (W * i + j) = 65535) ∧
    (cs.filter (fun c => covers S c i j) ≠ [] →
      ∃ c ∈ cs.filter (fun c => covers S c i j),
        slic_assign_cluster_oriented image cache q W H S cs (W * i + j) = c.number ∧
        ∀ c' ∈ cs.filter (fun c => covers S c i j),
          wscore image cache q W c i j < wscore image cache q W c' i j ∨
          (wscore image cache q W c i j = wscore image cache q W c' i j ∧
            c.number ≤ c'.number)) := by
  have hpass :
      slic_assign_pass image cache q W H S cs (W * i + j) =
        ((cs.filter (fun c => covers S c i j)).map
            (fun c => candidate image cache q W c i j)).foldl min 4294967295 :=
    foldl_assignOne_apply image cache q W H S cs _ i j hin hi hj
  constructor
  · intro h
    unfold slic_assign_cluster_oriented
    rw [hpass, h]
    simp only [List.map_nil, List.foldl_nil]
  · intro h
    have hmapne :
        (cs.filter (fun c => covers S c i j)).map
            (fun c => candidate image cache q W c i j) ≠ [] := by
      simpa using h
    have hub : ∀ y ∈ (cs.filter (fun c => covers S c i j)).map
        (fun c => candidate image cache q W c i j), y ≤ 4294967295 := by
      intro y hy
      obtain ⟨c, hc, rfl⟩ := List.mem_map.mp hy
      rw [candidate_decompose image cache q W c i j
        (hnum c (List.mem_of_mem_filter hc))]
      have h1 : wscore image cache q W c i j < 65536 := Nat.mod_lt _ (by omega)
      have h2 := hnum c (List.mem_of_mem_filter hc)
      omega
    obtain ⟨x, hxmem, hfold, hmin⟩ := foldl_min_spec _ 4294967295 hmapne hub
    obtain ⟨c, hcL, rfl⟩ := List.mem_map.mp hxmem
    have hcn := hnum c (List.mem_of_mem_filter hcL)
    refine ⟨c, hcL, ?_, ?_⟩
    · unfold slic_assign_cluster_oriented
      rw [hpass, hfold, candidate_decompose image cache q W c i j hcn]
      omega
    · intro c' hc'
      have hle := hmin _ (List.mem_map_of_mem _ hc')
      have hcn' := hnum c' (List.mem_of_mem_filter hc')
      rw [candidate_decompose image cache q W c i j hcn,
        candidate_decompose image cache q W c' i j hcn'] at hle
      exact (packed_le_iff _ _ _ _ hcn hcn').mp hle

/-- Second cluster of the assignment counterexample: color (255, 45, 0),
number 1, at the same centroid as `cWhite`. -/
def cRed : Cluster := ⟨1, 0, 0, 255, 45, 0, 0⟩

/-- Claim C1 counterexample: on a 1×1 black image with `quantize_level = 7`,
an all-zero spatial cache and the two clusters `cWhite` (color L1 765,
number 0) and `cRed` (color L1 300, number 1), both windows cover the single
pixel, the claimed score of `cRed` is strictly smaller than the claimed score
of `cWhite` (38400 < 65535 clamped, and 38400 < 97920 exact), yet the kernel
labels the pixel with `cWhite`'s number 0 because `765 << 7 = 97920` wraps to
`32384 < 38400` modulo `2^16`. -/
theorem assign_not_spec_argmin_cex :
    slic_assign_cluster_oriented (fun _ => 0) (fun _ => 0) 7 1 1 1 [cWhite, cRed] 0 =
      cWhite.number ∧
    cWhite.number ≠ cRed.number ∧
    covers 1 cWhite 0 0 = true ∧ covers 1 cRed 0 0 = true ∧
    spec_clamped_score (fun _ => 0) (fun _ => 0) 7 1 cRed 0 0 <
      spec_clamped_score (fun _ => 0) (fun _ => 0) 7 1 cWhite 0 0 ∧
    colorL1 (fun _ => 0) 0 cRed <<< 7 < colorL1 (fun _ => 0) 0 cWhite <<< 7 := by
  refine ⟨by decide, by decide, by decide, by decide, by decide, by decide⟩

/-- Witness for `assign_argmin_wrapped` on a 1×1 image with one cluster. -/
theorem assign_argmin_wrapped_witness :
    ([cWhite].filter (fun c => covers 1 c 0 0) = [] →
      slic_assign_cluster_oriented (fun _ => 0) (fun _ => 0) 0 1 1 1 [cWhite]
        (1 * 0 + 0) = 65535) ∧
    ([cWhite].filter (fun c => covers 1 c 0 0) ≠ [] →
      ∃ c ∈ [cWhite].filter (fun c => covers 1 c 0 0),
        slic_assign_cluster_oriented (fun _ => 0) (fun _ => 0) 0 1 1 1 [cWhite]
          (1 * 0 + 0) = c.number ∧
        ∀ c' ∈ [cWhite].filter (fun c => covers 1 c 0 0),
          wscore (fun _ => 0) (fun _ => 0) 0 1 c 0 0 <
            wscore (fun _ => 0) (fun _ => 0) 0 1 c' 0 0 ∨
          (wscore (fun _ => 0) (fun _ => 0) 0 1 c 0 0 =
            wscore (fun _ => 0) (fun _ => 0) 0 1 c' 0 0 ∧
            c.number ≤ c'.number)) :=
  assign_argmin_wrapped (fun _ => 0) (fun _ => 0) 0 1 1 1 [cWhite]
    (by intro c hc; rw [List.mem_singleton] at hc; subst hc; decide)
    (by intro c hc; rw [List.mem_singleton] at hc; subst hc; decide)
    0 0 (by decide) (by decide)

/-- Modelled from the spec: `round_int` of `fast-slic-common-impl.hpp`, which
is not under `src/` — integer division rounding to nearest, ties away from
zero (§4.3 of the spec); for the kernel's non-negative sums this is
round-half-up. -/
def round_int (a b : Nat) : Nat := (2 * a + b) / (2 * b)

/-- Per-cluster accumulator of `slic_update_clusters`: member count and the
running sums of `[y, x, r, g, b]` (`num_cluster_members` and
`cluster_acc_vec`, src/fast-slic.cpp:143-144). -/
structure Accum where
  cnt : Nat
  sy : Nat
  sx : Nat
  sr : Nat
  sg : Nat
  sb : Nat
deriving DecidableEq

/-- Accumulation of one pixel `p` by the update kernel's scan
(src/fast-slic.cpp:160-174): the label is the `uint16_t` cast of the
assignment word; the sentinel `0xFFFF` is skipped, otherwise the pixel's
coordinates and colors are added to its cluster's accumulator. -/
def updStep (W : Nat) (image a : Nat → Nat) (acc : Nat → Accum) (p : Nat) : Nat → Accum :=
  if a p % 65536 = 65535 then acc
  else fun k =>
    if k = a p % 65536 then
      ⟨(acc k).cnt + 1, (acc k).sy + p / W, (acc k).sx + p % W,
        (acc k).sr + image (3 * p), (acc k).sg + image (3 * p + 1),
        (acc k).sb + image (3 * p + 2)⟩
    else acc k

/-- Embedding of `slic_update_clusters` (src/fast-slic.cpp:135-207): scan all
pixels into accumulators, then set each cluster's `num_members` to its count,
and, when the count is positive, set the centroid fields to the rounded
means.  The worker-private accumulators merged under the critical section are
an associative regrouping of this single fold. -/
def slic_update_clusters (H W K : Nat) (image a : Nat → Nat)
    (cl : Nat → Cluster) : Nat → Cluster :=
  let acc := (pixels H W).foldl (updStep W image a) (fun _ => ⟨0, 0, 0, 0, 0, 0⟩)
  fun k =>
    if (acc k).cnt = 0 then { cl k with num_members := 0 }
    else
      ⟨(cl k).number, round_int (acc k).sy (acc k).cnt, round_int (acc k).sx (acc k).cnt,
        round_int (acc k).sr (acc k).cnt, round_int (acc k).sg (acc k).cnt,
        round_int (acc k).sb (acc k).cnt, (acc k).cnt⟩

/-- Helper: `round_int a b` is a nearest integer to `a / b`. -/
lemma round_int_nearest (a b : Nat) (hb : 0 < b) :
    2 * a ≤ 2 * b * round_int a b + b ∧ 2 * b * round_int a b ≤ 2 * a + b := by
  unfold round_int
  have h := Nat.div_add_mod (2 * a + b) (2 * b)
  have h2 : (2 * a + b) % (2 * b) < 2 * b := Nat.mod_lt _ (by omega)
  generalize hm : (2 * a + b) % (2 * b) = m at h h2
  generalize hu : 2 * b * ((2 * a + b) / (2 * b)) = u at h ⊢
  omega

/-- Helper: the accumulator fold computes, for each non-sentinel cluster
index, the count and attribute sums over the pixels labeled with it. -/
lemma updFold_apply (W : Nat) (image a : Nat → Nat) (k : Nat) (hk : k ≠ 65535) :
    ∀ (l : List Nat) (acc : Nat → Accum),
      (l.foldl (updStep W image a) acc) k =
        ⟨(acc k).cnt + (l.filter (fun p => a p % 65536 == k)).length,
          (acc k).sy + ((l.filter (fun p => a p % 65536 == k)).map (fun p => p / W)).sum,
          (acc k).sx + ((l.filter (fun p => a p % 65536 == k)).map (fun p => p % W)).sum,
          (acc k).sr + ((l.filter (fun p => a p % 65536 == k)).map (fun p => image (3 * p))).sum,
          (acc k).sg + ((l.filter (fun p => a p % 65536 == k)).map (fun p => image (3 * p + 1))).sum,
          (acc k).sb + ((l.filter (fun p => a p % 65536 == k)).map (fun p => image (3 * p + 2))).sum⟩ := by
  intro l
  induction l with
  | nil => intro acc; simp
  | cons p l ih =>
    intro acc
    rw [List.foldl_cons, ih]
    by_cases h1 : a p % 65536 = 65535
    · have hpk : (a p % 65536 == k) = false := by
        rw [beq_eq_false_iff_ne]; omega
      have hstep : updStep W image a acc p = acc := by
        unfold updStep; rw [if_pos h1]
      rw [hstep, List.filter_cons, hpk]
      simp
    · by_cases h2 : a p % 65536 = k
      · have hpk : (a p % 65536 == k) = true := by rw [beq_iff_eq]; exact h2
        have hstep : (updStep W image a acc p) k =
            ⟨(acc k).cnt + 1, (acc k).sy + p / W, (acc k).sx + p % W,
              (acc k).sr + image (3 * p), (acc k).sg + image (3 * p + 1),
              (acc k).sb + image (3 * p + 2)⟩ := by
          unfold updStep; rw [if_neg h1, if_pos h2.symm]
        rw [hstep, List.filter_cons, hpk]
        simp only [if_true, List.length_cons, List.map_cons, List.sum_cons]
        congr 1 <;> omega
      · have hpk : (a p % 65536 == k) = false := by
          rw [beq_eq_false_iff_ne]; exact fun h => h2 h
        have hstep : (updStep W image a acc p) k = acc k := by
          unfold updStep; rw [if_neg h1, if_neg (fun h => h2 h.symm)]
        rw [hstep, List.filter_cons, hpk]
        simp

/-- Helper: every pixel index is below `H * W`. -/
lemma mem_pixels_lt {H W p : Nat} (hp : p ∈ pixels H W) : p < H * W := by
  unfold pixels at hp
  simp only [List.mem_flatMap, List.mem_map, List.mem_range] at hp
  obtain ⟨i, hi, j, hj, rfl⟩ := hp
  have h1 : W * i + j < W * (i + 1) := by rw [Nat.mul_succ]; omega
  have h2 : W * (i + 1) ≤ W * H := Nat.mul_le_mul_left W hi
  rw [Nat.mul_comm W H] at h2
  omega

/-- Helper: a specific in-range pixel index is a member of the pixel list. -/
lemma mem_pixels_of_lt {H W i j : Nat} (hi : i < H) (hj : j < W) :
    W * i + j ∈ pixels H W := by
  unfold pixels
  simp only [List.mem_flatMap, List.mem_map, List.mem_range]
  exact ⟨i, hi, j, hj, rfl⟩

/-- Claim C2: the update kernel sets, for every `k < K`, `num_members` to
the exact count of pixels whose label equals `k`; when that count is positive
it sets `(y, x, r, g, b)` to the rounded integer means of the member pixels'
coordinates and colors (rounding to nearest, and the `y` field is shown to be
a nearest integer to the exact mean); when the count is zero it leaves
`(y, x, r, g, b)` unchanged while setting `num_members` to 0. -/
theorem update_clusters_means (H W K : Nat) (image a : Nat → Nat) (cl : Nat → Cluster)
    (hlab : ∀ p, p < H * W → a p < K ∨ a p = 65535)
    (hK : K ≤ 65535) (k : Nat) (hk : k < K) :
    (slic_update_clusters H W K image a cl k).num_members =
      ((pixels H W).filter (fun p => a p == k)).length ∧
    (((pixels H W).filter (fun p => a p == k)).length = 0 →
      slic_update_clusters H W K image a cl k = { cl k with num_members := 0 }) ∧
    (0 < ((pixels H W).filter (fun p => a p == k)).length →
      (slic_update_clusters H W K image a cl k).number = (cl k).number ∧
      (slic_update_clusters H W K image a cl k).y =
        round_int (((pixels H W).filter (fun p => a p == k)).map (fun p => p / W)).sum
          ((pixels H W).filter (fun p => a p == k)).length ∧
      (slic_update_clusters H W K image a cl k).x =
        round_int (((pixels H W).filter (fun p => a p == k)).map (fun p => p % W)).sum
          ((pixels H W).filter (fun p => a p == k)).length ∧
      (slic_update_clusters H W K image a cl k).r =
        round_int (((pixels H W).filter (fun p => a p == k)).map (fun p => image (3 * p))).sum
          ((pixels H W).filter (fun p => a p == k)).length ∧
      (slic_update_clusters H W K image a cl k).g =
        round_int (((pixels H W).filter (fun p => a p == k)).map (fun p => image (3 * p + 1))).sum
          ((pixels H W).filter (fun p => a p == k)).length ∧
      (slic_update_clusters H W K image a cl k).b =
        round_int (((pixels H W).filter (fun p => a p == k)).map (fun p => image (3 * p + 2))).sum
          ((pixels H W).filter (fun p => a p == k)).length ∧
      2 * (((pixels H W).filter (fun p => a p == k)).map (fun p => p / W)).sum ≤
        2 * ((pixels H W).filter (fun p => a p == k)).length *
          (slic_update_clusters H W K image a cl k).y +
          ((pixels H W).filter (fun p => a p == k)).length ∧
      2 * ((pixels H W).filter (fun p => a p == k)).length *
          (slic_update_clusters H W K image a cl k).y ≤
        2 * (((pixels H W).filter (fun p => a p == k)).map (fun p => p / W)).sum +
          ((pixels H W).filter (fun p => a p == k)).length) := by
  have hfil : (pixels H W).filter (fun p => a p % 65536 == k) =
      (pixels H W).filter (fun p => a p == k) := by
    apply List.filter_congr
    intro p hp
    have hlt := mem_pixels_lt hp
    have hle : a p ≤ 65535 := by rcases hlab p hlt with h | h <;> omega
    rw [Nat.mod_eq_of_lt (by omega)]
  have hacc := updFold_apply W image a k (by omega) (pixels H W) (fun _ => ⟨0, 0, 0, 0, 0, 0⟩)
  rw [hfil] at hacc
  have hres : slic_update_clusters H W K image a cl k =
      (if (((pixels H W).filter (fun p => a p == k)).length) = 0 then
        { cl k with num_members := 0 }
      else
        ⟨(cl k).number,
          round_int (((pixels H W).filter (fun p => a p == k)).map (fun p => p / W)).sum
            ((pixels H W).filter (fun p => a p == k)).length,
          round_int (((pixels H W).filter (fun p => a p == k)).map (fun p => p % W)).sum
            ((pixels H W).filter (fun p => a p == k)).length,
          round_int (((pixels H W).filter (fun p => a p == k)).map (fun p => image (3 * p))).sum
            ((pixels H W).filter (fun p => a p == k)).length,
          round_int (((pixels H W).filter (fun p => a p == k)).map (fun p => image (3 * p + 1))).sum
            ((pixels H W).filter (fun p => a p == k)).length,
          round_int (((pixels H W).filter (fun p => a p == k)).map (fun p => image (3 * p + 2))).sum
            ((pixels H W).filter (fun p => a p == k)).length,
          ((pixels H W).filter (fun p => a p == k)).length⟩) := by
    unfold slic_update_clusters
    rw [hacc]
    simp
  rw [hres]
  by_cases hz : (((pixels H W).filter (fun p => a p == k)).length) = 0
  · rw [if_pos hz]
    refine ⟨by rw [hz], fun _ => rfl, fun hpos => absurd hz (by omega)⟩
  · rw [if_neg hz]
    refine ⟨rfl, fun h => absurd h hz, fun hpos => ?_⟩
    refine ⟨rfl, rfl, rfl, rfl, rfl, rfl, ?_, ?_⟩
    · exact (round_int_nearest _ _ hpos).1
    · exact (round_int_nearest _ _ hpos).2

/-- Label image of the update-kernel witness: both pixels labeled 0. -/
def lblZero : Nat → Nat := fun _ => 0

/-- Image of the update-kernel witness: byte `n` holds value `n`. -/
def imgId : Nat → Nat := fun n => n

/-- Witness for `update_clusters_means` on a 1×2 image with one cluster. -/
theorem update_clusters_means_witness :
    (slic_update_clusters 1 2 1 imgId lblZero (fun _ => cWhite) 0).num_members = 2 ∧
    (slic_update_clusters 1 2 1 imgId lblZero (fun _ => cWhite) 0).x = 1 := by
  have h := update_clusters_means 1 2 1 imgId lblZero (fun _ => cWhite)
    (fun p _ => Or.inl Nat.zero_lt_one) (by decide) 0 (by decide)
  refine ⟨h.1.trans (by decide), ?_⟩
  have h2 := (h.2.2 (by decide)).2.2.1
  rw [h2]
  decide

/-- Embedding of `fast_slic_get_mask_density` (src/fast-slic.cpp:382-397):
per-cluster sum of the mask over the pixels labeled with a valid cluster
index, then `min(255, sum / max(num_members, 1))`. -/
def fast_slic_get_mask_density (H W K : Nat) (cl : Nat → Cluster)
    (a mask : Nat → Nat) : Nat → Nat :=
  fun k =>
    min 255
      (((pixels H W).foldl
          (fun s p =>
            if a p < K then (fun k => if k = a p then s k + mask p else s k) else s)
          (fun _ => 0)) k /
        max (cl k).num_members 1)

/-- Embedding of `fast_slic_cluster_density_to_mask` (src/fast-slic.cpp:399-409):
broadcast the per-cluster densities back to pixels; labels that are not a
valid cluster index give 0. -/
def fast_slic_cluster_density_to_mask (H W K : Nat) (cl : Nat → Cluster)
    (a dens : Nat → Nat) : Nat → Nat :=
  fun p => if a p < K then dens (a p) else 0

/-- Helper: the mask-density sum fold over a constant mask `v` accumulates
`v` times the number of pixels labeled `k`, for any valid cluster `k`. -/
lemma maskSumFold_const (K : Nat) (a : Nat → Nat) (v k : Nat) (hk : k < K) :
    ∀ (l : List Nat) (s : Nat → Nat),
      (l.foldl
        (fun s p =>
          if a p < K then (fun k => if k = a p then s k + v else s k) else s)
        s) k = s k + v * (l.filter (fun p => a p == k)).length := by
  intro l
  induction l with
  | nil => intro s; simp
  | cons p l ih =>
    intro s
    rw [List.foldl_cons, ih]
    by_cases h2 : a p = k
    · have hlt : a p < K := by omega
      have hpk : (a p == k) = true := by rw [beq_iff_eq]; exact h2
      rw [if_pos hlt, List.filter_cons, hpk, if_pos h2.symm]
      simp only [if_true, List.length_cons]
      rw [Nat.mul_succ]
      omega
    · have hpk : (a p == k) = false := by rw [beq_eq_false_iff_ne]; exact h2
      rw [List.filter_cons, hpk]
      by_cases hlt : a p < K
      · rw [if_pos hlt, if_neg (fun h => h2 h.symm)]
        simp
      · rw [if_neg hlt]
        simp

/-- Claim C7: for a label image with labels in `[0, K) ∪ {0xFFFF}`, a cluster
array whose `num_members` equal the exact member counts, and a constant mask
of value `v ≤ 255`, broadcasting the densities computed from the mask yields
`v` at every pixel whose label is a valid cluster index and `0` at every
sentinel-labeled pixel. -/
theorem density_round_trip (H W K : Nat) (cl : Nat → Cluster) (a : Nat → Nat)
    (v : Nat) (hv : v ≤ 255) (hK : K ≤ 65535)
    (hlab : ∀ p, p < H * W → a p < K ∨ a p = 65535)
    (hmem : ∀ k, k < K →
      (cl k).num_members = ((pixels H W).filter (fun p => a p == k)).length)
    (i j : Nat) (hi : i < H) (hj : j < W) :
    fast_slic_cluster_density_to_mask H W K cl a
        (fast_slic_get_mask_density H W K cl a (fun _ => v)) (W * i + j) =
      if a (W * i + j) < K then v else 0 := by
  unfold fast_slic_cluster_density_to_mask
  by_cases hc : a (W * i + j) < K
  · rw [if_pos hc, if_pos hc]
    unfold fast_slic_get_mask_density
    have hsum := maskSumFold_const K a v (a (W * i + j)) hc (pixels H W) (fun _ => 0)
    rw [hsum]
    clear hsum
    have hlen : 0 < ((pixels H W).filter (fun p => a p == a (W * i + j))).length := by
      have hmemp : (W * i + j) ∈ (pixels H W).filter (fun p => a p == a (W * i + j)) := by
        rw [List.mem_filter]
        exact ⟨mem_pixels_of_lt hi hj, by rw [beq_iff_eq]⟩
      exact List.length_pos.mpr (List.ne_nil_of_mem hmemp)
    rw [hmem _ hc]
    have hmax : ((List.filter (fun p => a p == a (W * i + j)) (pixels H W)).length ⊔ 1) =
        (List.filter (fun p => a p == a (W * i + j)) (pixels H W)).length := by omega
    rw [hmax, Nat.zero_add, Nat.mul_div_cancel v hlen]
    omega
  · rw [if_neg hc, if_neg hc]

/-- Cluster record of the density witness: one member pixel. -/
def cOneMember : Cluster := ⟨0, 0, 0, 0, 0, 0, 1⟩

/-- Witness for `density_round_trip` on a 1×1 image with one cluster and a
constant mask of value 5. -/
theorem density_round_trip_witness :
    fast_slic_cluster_density_to_mask 1 1 1 (fun _ => cOneMember) lblZero
        (fast_slic_get_mask_density 1 1 1 (fun _ => cOneMember) lblZero (fun _ => 5))
        (1 * 0 + 0) =
      if lblZero (1 * 0 + 0) < 1 then 5 else 0 :=
  density_round_trip 1 1 1 (fun _ => cOneMember) lblZero 5 (by decide) (by decide)
    (fun p _ => Or.inl Nat.zero_lt_one) (by decide) 0 0 (by decide) (by decide)

/-- Embedding of `symmetric_int_hash` (src/fast-slic.cpp:248-255): the two
`uint32_t` products wrap modulo `2^32`, are xor-ed with the other argument,
and the final addition wraps modulo `2^32`.  Swapping `x` and `y` swaps the
two summands, so the hash is symmetric. -/
def symmetric_int_hash (x y : Nat) : Nat :=
  ((x * 522133279) % 4294967296 ^^^ y) % 4294967296 +
      ((y * 522133279) % 4294967296 ^^^ x) % 4294967296 |>.mod 4294967296

/-- State of the adjacency builder: per-cluster neighbor lists
(`conn->neighbors` together with `conn->num_neighbors` as the lengths) and
the bit-addressable hash table (`hashtable`, addressed by the flat bit index
`hash_idx` rather than by word and bit, which is an equivalent keying). -/
structure ConnState where
  neighbors : Nat → List Nat
  bits : Nat → Bool

/-- Neighbor lists after recording a pair: the source is appended to the
target's list and the target to the source's list (src/fast-slic.cpp:306-307). -/
def addPair (ns : Nat → List Nat) (s t : Nat) : Nat → List Nat :=
  fun x => if x = s then ns s ++ [t] else if x = t then ns t ++ [s] else ns x

/-- Recording of a fresh pair: both neighbor lists are extended and the
pair's hash bit is set (src/fast-slic.cpp:306-308). -/
def connAdd (st : ConnState) (s t hidx : Nat) : ConnState :=
  ⟨addPair st.neighbors s t, fun n => if n = hidx then true else st.bits n⟩

/-- Processing of one candidate `(source, target)` pair by the
`CONNECTIVITY_SEARCH` macro (src/fast-slic.cpp:281-309): skip targets that
are not valid cluster numbers and self pairs, skip when either endpoint's
list is full (`max_conn = 12`), on a hash hit skip when the pair is already
recorded in either list, otherwise record the pair. -/
def connStep (K : Nat) (st : ConnState) (pr : Nat × Nat) : ConnState :=
  if pr.2 < K ∧ pr.1 ≠ pr.2 then
    if (st.neighbors pr.1).length < 12 ∧ (st.neighbors pr.2).length < 12 then
      if st.bits (symmetric_int_hash pr.1 pr.2 % (K * 32)) = true ∧
          (pr.2 ∈ st.neighbors pr.1 ∨ pr.1 ∈ st.neighbors pr.2) then st
      else connAdd st pr.1 pr.2 (symmetric_int_hash pr.1 pr.2 % (K * 32))
    else st
  else st

/-- Candidate pairs in scan order (src/fast-slic.cpp:273-314): for every
pixel with `i < H - 1` and `j < W - 1` whose own label is a valid cluster
number, the three forward neighbors (right, below, below-right). -/
def scanPairs (H W K : Nat) (a : Nat → Nat) : List (Nat × Nat) :=
  (List.range (H - 1)).flatMap fun i =>
    (List.range (W - 1)).flatMap fun j =>
      if a (W * i + j) < K then
        [(a (W * i + j), a (W * i + j + 1)),
          (a (W * i + j), a (W * i + j + W)),
          (a (W * i + j), a (W * i + j + W + 1))]
      else []

/-- Embedding of `fast_slic_get_connectivity` (src/fast-slic.cpp:257-319):
fold the candidate scan over the empty state. -/
def fast_slic_get_connectivity (H W K : Nat) (a : Nat → Nat) : ConnState :=
  (scanPairs H W K a).foldl (connStep K) ⟨fun _ => [], fun _ => false⟩

/-- Matching of an ordered candidate pair against an unordered pair. -/
def pairMatch (pr : Nat × Nat) (x y : Nat) : Prop :=
  (pr.1 = x ∧ pr.2 = y) ∨ (pr.1 = y ∧ pr.2 = x)

/-- Validity of a candidate pair: the target is a cluster number and the
endpoints differ (the source is below `K` by construction of `scanPairs`). -/
def validPair (K : Nat) (pr : Nat × Nat) : Prop := pr.2 < K ∧ pr.1 ≠ pr.2

/-- Presence of the unordered pair `{x, y}` among the valid candidates of a
scan-pair list. -/
def pairIn (K : Nat) (P : List (Nat × Nat)) (x y : Nat) : Prop :=
  ∃ pr ∈ P, validPair K pr ∧ pairMatch pr x y

/-- Invariant of the adjacency builder over the processed prefix `P`:
the lists are symmetric, every recorded pair has its hash bit set, every
recorded pair was a valid candidate, every valid candidate is recorded
unless one endpoint's list is full, and every list has at most 12 entries. -/
def ConnInv (K : Nat) (P : List (Nat × Nat)) (st : ConnState) : Prop :=
  (∀ x y, y ∈ st.neighbors x → x ∈ st.neighbors y) ∧
  (∀ x y, y ∈ st.neighbors x →
    st.bits (symmetric_int_hash x y % (K * 32)) = true) ∧
  (∀ x y, y ∈ st.neighbors x → pairIn K P x y) ∧
  (∀ x y, pairIn K P x y →
    y ∈ st.neighbors x ∨ 12 ≤ (st.neighbors x).length ∨ 12 ≤ (st.neighbors y).length) ∧
  (∀ x, (st.neighbors x).length ≤ 12)

/-- Helper: the hash is symmetric in its two arguments. -/
lemma symmetric_int_hash_comm (x y : Nat) :
    symmetric_int_hash x y = symmetric_int_hash y x := by
  unfold symmetric_int_hash
  rw [Nat.add_comm]

/-- Helper: the neighbor component of a recorded pair. -/
lemma connAdd_neighbors (st : ConnState) (s t hidx : Nat) :
    (connAdd st s t hidx).neighbors = addPair st.neighbors s t := rfl

/-- Helper: membership in the neighbor lists after recording a pair. -/
lemma addPair_mem {ns : Nat → List Nat} {s t : Nat} (hst : s ≠ t) (x y : Nat) :
    y ∈ addPair ns s t x ↔
      (y ∈ ns x ∨ (x = s ∧ y = t) ∨ (x = t ∧ y = s)) := by
  unfold addPair
  by_cases hxs : x = s
  · subst hxs
    rw [if_pos rfl]
    simp [List.mem_append, hst]
  · rw [if_neg hxs]
    by_cases hxt : x = t
    · subst hxt
      rw [if_pos rfl]
      simp [List.mem_append, hxs]
    · rw [if_neg hxt]
      simp [hxs, hxt]

/-- Helper: list lengths after recording a pair. -/
lemma addPair_len {ns : Nat → List Nat} {s t : Nat} (hst : s ≠ t) (x : Nat) :
    (addPair ns s t x).length =
      if x = s then (ns s).length + 1
      else if x = t then (ns t).length + 1
      else (ns x).length := by
  unfold addPair
  by_cases hxs : x = s
  · subst hxs; simp
  · rw [if_neg hxs, if_neg hxs]
    by_cases hxt : x = t
    · subst hxt; simp
    · rw [if_neg hxt, if_neg hxt]

/-- Helper: hash bits after recording a pair. -/
lemma connAdd_bits (st : ConnState) (s t hidx n : Nat) :
    (connAdd st s t hidx).bits n = if n = hidx then true else st.bits n := rfl

/-- Helper: `pairIn` over a longer prefix. -/
lemma pairIn_append {K : Nat} {P : List (Nat × Nat)} {x y : Nat}
    (h : pairIn K P x y) (l : List (Nat × Nat)) : pairIn K (P ++ l) x y := by
  obtain ⟨pr, hpr, hv, hm⟩ := h
  exact ⟨pr, List.mem_append_left _ hpr, hv, hm⟩

/-- Helper: `pairIn` over a prefix extended by a single candidate. -/
lemma pairIn_snoc {K : Nat} {P : List (Nat × Nat)} {pr : Nat × Nat} {x y : Nat} :
    pairIn K (P ++ [pr]) x y ↔ pairIn K P x y ∨ (validPair K pr ∧ pairMatch pr x y) := by
  unfold pairIn
  constructor
  · rintro ⟨pr', hpr', hv, hm⟩
    rcases List.mem_append.mp hpr' with h | h
    · exact Or.inl ⟨pr', h, hv, hm⟩
    · rw [List.mem_singleton] at h
      subst h
      exact Or.inr ⟨hv, hm⟩
  · rintro (⟨pr', hpr', hv, hm⟩ | ⟨hv, hm⟩)
    · exact ⟨pr', List.mem_append_left _ hpr', hv, hm⟩
    · exact ⟨pr, List.mem_append_right _ (List.mem_singleton_self _), hv, hm⟩

/-- Helper: one step of the adjacency builder preserves the invariant,
extending the processed prefix by the processed candidate. -/
lemma connStep_inv (K : Nat) (P : List (Nat × Nat)) (st : ConnState)
    (pr : Nat × Nat) (h : ConnInv K P st) :
    ConnInv K (P ++ [pr]) (connStep K st pr) := by
  obtain ⟨h1, h2, h3, h4, h5⟩ := h
  unfold connStep
  by_cases hv : pr.2 < K ∧ pr.1 ≠ pr.2
  case neg =>
    rw [if_neg hv]
    refine ⟨h1, h2, fun x y hm => pairIn_append (h3 x y hm) _, ?_, h5⟩
    intro x y hp
    rcases pairIn_snoc.mp hp with hp | ⟨hval, hm⟩
    · exact h4 x y hp
    · exact absurd hval hv
  case pos =>
    rw [if_pos hv]
    by_cases hcap : (st.neighbors pr.1).length < 12 ∧ (st.neighbors pr.2).length < 12
    case neg =>
      rw [if_neg hcap]
      refine ⟨h1, h2, fun x y hm => pairIn_append (h3 x y hm) _, ?_, h5⟩
      intro x y hp
      rcases pairIn_snoc.mp hp with hp | ⟨hval, hm⟩
      · exact h4 x y hp
      · right
        have hful : 12 ≤ (st.neighbors pr.1).length ∨ 12 ≤ (st.neighbors pr.2).length := by
          by_cases hc1 : (st.neighbors pr.1).length < 12
          · right
            by_cases hc2 : (st.neighbors pr.2).length < 12
            · exact absurd ⟨hc1, hc2⟩ hcap
            · omega
          · left; omega
        rcases hm with ⟨hx, hy⟩ | ⟨hx, hy⟩
        · subst hx; subst hy
          rcases hful with hf | hf
          · exact Or.inl hf
          · exact Or.inr hf
        · subst hx; subst hy
          rcases hful with hf | hf
          · exact Or.inr hf
          · exact Or.inl hf
    case pos =>
      rw [if_pos hcap]
      by_cases hdup : st.bits (symmetric_int_hash pr.1 pr.2 % (K * 32)) = true ∧
          (pr.2 ∈ st.neighbors pr.1 ∨ pr.1 ∈ st.neighbors pr.2)
      case pos =>
        rw [if_pos hdup]
        refine ⟨h1, h2, fun x y hm => pairIn_append (h3 x y hm) _, ?_, h5⟩
        intro x y hp
        rcases pairIn_snoc.mp hp with hp | ⟨hval, hm⟩
        · exact h4 x y hp
        · left
          have hmem : pr.2 ∈ st.neighbors pr.1 ∧ pr.1 ∈ st.neighbors pr.2 := by
            rcases hdup.2 with hmm | hmm
            · exact ⟨hmm, h1 _ _ hmm⟩
            · exact ⟨h1 _ _ hmm, hmm⟩
          rcases hm with ⟨hx, hy⟩ | ⟨hx, hy⟩
          · subst hx; subst hy; exact hmem.1
          · subst hx; subst hy; exact hmem.2
      case neg =>
        rw [if_neg hdup]
        have hst : pr.1 ≠ pr.2 := hv.2
        refine ⟨?_, ?_, ?_, ?_, ?_⟩
        · intro x y hm
          rw [connAdd_neighbors, addPair_mem hst] at hm ⊢
          rcases hm with hm | ⟨rfl, rfl⟩ | ⟨rfl, rfl⟩
          · exact Or.inl (h1 x y hm)
          · exact Or.inr (Or.inr ⟨rfl, rfl⟩)
          · exact Or.inr (Or.inl ⟨rfl, rfl⟩)
        · intro x y hm
          rw [connAdd_neighbors, addPair_mem hst] at hm
          rw [connAdd_bits]
          rcases hm with hm | ⟨rfl, rfl⟩ | ⟨rfl, rfl⟩
          · by_cases heq : symmetric_int_hash x y % (K * 32) =
                symmetric_int_hash pr.1 pr.2 % (K * 32)
            · rw [if_pos heq]
            · rw [if_neg heq]; exact h2 x y hm
          · rw [if_pos rfl]
          · rw [if_pos (by rw [symmetric_int_hash_comm])]
        · intro x y hm
          rw [connAdd_neighbors, addPair_mem hst] at hm
          rcases hm with hm | ⟨rfl, rfl⟩ | ⟨rfl, rfl⟩
          · exact pairIn_append (h3 x y hm) _
          · exact pairIn_snoc.mpr (Or.inr ⟨hv, Or.inl ⟨rfl, rfl⟩⟩)
          · exact pairIn_snoc.mpr (Or.inr ⟨hv, Or.inr ⟨rfl, rfl⟩⟩)
        · intro x y hp
          rcases pairIn_snoc.mp hp with hp | ⟨hval, hm⟩
          · rcases h4 x y hp with hmem | hfull | hfull
            · left
              rw [connAdd_neighbors, addPair_mem hst]
              exact Or.inl hmem
            · right; left
              rw [connAdd_neighbors, addPair_len hst]
              split_ifs with e1 e2
              · subst e1; omega
              · subst e2; omega
              · omega
            · right; right
              rw [connAdd_neighbors, addPair_len hst]
              split_ifs with e1 e2
              · subst e1; omega
              · subst e2; omega
              · omega
          · left
            rw [connAdd_neighbors, addPair_mem hst]
            rcases hm with ⟨hx, hy⟩ | ⟨hx, hy⟩
            · exact Or.inr (Or.inl ⟨hx.symm, hy.symm⟩)
            · exact Or.inr (Or.inr ⟨hy.symm, hx.symm⟩)
        · intro x
          rw [connAdd_neighbors, addPair_len hst]
          split_ifs with e1 e2
          · subst e1; omega
          · subst e2; omega
          · exact h5 x

/-- Helper: the fold of the adjacency builder preserves the invariant. -/
lemma connFold_inv (K : Nat) :
    ∀ (l P : List (Nat × Nat)) (st : ConnState),
      ConnInv K P st → ConnInv K (P ++ l) (l.foldl (connStep K) st) := by
  intro l
  induction l with
  | nil => intro P st h; simpa using h
  | cons pr l ih =>
    intro P st h
    rw [List.foldl_cons]
    have h2 := ih (P ++ [pr]) (connStep K st pr) (connStep_inv K P st pr h)
    rw [List.append_assoc, List.singleton_append] at h2
    exact h2

/-- Helper: the invariant holds for the final state of
`fast_slic_get_connectivity` with the full scan as the processed prefix. -/
lemma connectivity_inv (H W K : Nat) (a : Nat → Nat) :
    ConnInv K (scanPairs H W K a) (fast_slic_get_connectivity H W K a) := by
  have hinit : ConnInv K [] (⟨fun _ => [], fun _ => false⟩ : ConnState) := by
    refine ⟨fun x y hm => absurd hm (List.not_mem_nil _),
      fun x y hm => absurd hm (List.not_mem_nil _),
      fun x y hm => absurd hm (List.not_mem_nil _), ?_, fun x => by simp⟩
    rintro x y ⟨pr, hpr, _⟩
    exact absurd hpr (List.not_mem_nil _)
  have h := connFold_inv K (scanPairs H W K a) [] _ hinit
  rw [List.nil_append] at h
  exact h

/-- Forward adjacency as the scan of the source actually sees it: some pixel
`(i, j)` with `i < H - 1` and `j < W - 1` whose label and the label of its
right, below, or below-right neighbor form the unordered pair `{A, B}`, both
labels being valid cluster numbers. -/
def forwardAdj (H W K : Nat) (a : Nat → Nat) (A B : Nat) : Prop :=
  ∃ i j, i < H - 1 ∧ j < W - 1 ∧
    ∃ t, (t = a (W * i + j + 1) ∨ t = a (W * i + j + W) ∨ t = a (W * i + j + W + 1)) ∧
      a (W * i + j) < K ∧ t < K ∧ a (W * i + j) ≠ t ∧
      ((a (W * i + j) = A ∧ t = B) ∨ (a (W * i + j) = B ∧ t = A))

/-- Adjacency relation exactly as claim C4 words it: some pixel labeled `A`
has a pixel labeled `B` immediately to its right, below it, or diagonally
below-right of it.  Stated from the claim's words for comparison with the
source's scan. -/
def specAdjacent (H W : Nat) (a : Nat → Nat) (A B : Nat) : Prop :=
  ∃ i j, i < H ∧ j < W ∧ a (W * i + j) = A ∧
    ((j + 1 < W ∧ a (W * i + j + 1) = B) ∨
      (i + 1 < H ∧ a (W * (i + 1) + j) = B) ∨
      (i + 1 < H ∧ j + 1 < W ∧ a (W * (i + 1) + j + 1) = B))

/-- Helper: presence among the valid scanned candidates is forward
adjacency over the interior scan region. -/
lemma pairIn_scanPairs_iff (H W K : Nat) (a : Nat → Nat) (A B : Nat) :
    pairIn K (scanPairs H W K a) A B ↔ forwardAdj H W K a A B := by
  unfold pairIn scanPairs forwardAdj validPair pairMatch
  constructor
  · rintro ⟨pr, hpr, ⟨hv1, hv2⟩, hm⟩
    simp only [List.mem_flatMap, List.mem_range] at hpr
    obtain ⟨i, hi, j, hj, hmem⟩ := hpr
    by_cases hs : a (W * i + j) < K
    · rw [if_pos hs] at hmem
      have hmem' : pr = (a (W * i + j), a (W * i + j + 1)) ∨
          pr = (a (W * i + j), a (W * i + j + W)) ∨
          pr = (a (W * i + j), a (W * i + j + W + 1)) := by
        simpa using hmem
      rcases hmem' with rfl | rfl | rfl
      · exact ⟨i, j, hi, hj, a (W * i + j + 1), Or.inl rfl, hs, hv1, hv2, hm⟩
      · exact ⟨i, j, hi, hj, a (W * i + j + W), Or.inr (Or.inl rfl), hs, hv1, hv2, hm⟩
      · exact ⟨i, j, hi, hj, a (W * i + j + W + 1), Or.inr (Or.inr rfl), hs, hv1, hv2, hm⟩
    · rw [if_neg hs] at hmem
      exact absurd hmem (List.not_mem_nil _)
  · rintro ⟨i, j, hi, hj, t, ht, hs, htK, hne, hm⟩
    refine ⟨(a (W * i + j), t), ?_, ⟨htK, hne⟩, hm⟩
    simp only [List.mem_flatMap, List.mem_range]
    refine ⟨i, hi, j, hj, ?_⟩
    rw [if_pos hs]
    rcases ht with rfl | rfl | rfl
    · exact List.mem_cons_self _ _
    · exact List.mem_cons_of_mem _ (List.mem_cons_self _ _)
    · exact List.mem_cons_of_mem _ (List.mem_cons_of_mem _ (List.mem_cons_self _ _))

/-- Claim C4 (amended): for a label image with labels in `[0, K) ∪ {0xFFFF}`
and distinct clusters `A`, `B` whose final neighbor lists both have fewer
than 12 entries, `B` appears in `A`'s neighbor list iff some pixel `(i, j)`
with `i < H - 1` and `j < W - 1` has labels forming the unordered pair
`{A, B}` with its right, below, or below-right neighbor, both labels valid;
pairs involving the sentinel `0xFFFF` are never recorded (the sentinel is
never a valid label).  (The original claim is refuted by
`connectivity_adjacency_cex`: the scan never visits source pixels of the
last row or last column, and recording is unordered.) -/
theorem connectivity_adjacency_iff (H W K : Nat) (a : Nat → Nat)
    (hK : K ≤ 65535)
    (hlab : ∀ p, p < H * W → a p < K ∨ a p = 65535)
    (A B : Nat) (hAB : A ≠ B)
    (hA : ((fast_slic_get_connectivity H W K a).neighbors A).length < 12)
    (hB : ((fast_slic_get_connectivity H W K a).neighbors B).length < 12) :
    B ∈ (fast_slic_get_connectivity H W K a).neighbors A ↔
      forwardAdj H W K a A B := by
  obtain ⟨h1, h2, h3, h4, h5⟩ := connectivity_inv H W K a
  constructor
  · intro hm
    exact (pairIn_scanPairs_iff H W K a A B).mp (h3 A B hm)
  · intro hadj
    rcases h4 A B ((pairIn_scanPairs_iff H W K a A B).mpr hadj) with hm | hf | hf
    · exact hm
    · omega
    · omega

/-- Label image of the adjacency counterexample: a single row `[0, 1]`. -/
def lblRow : Nat → Nat := fun p => min p 1

/-- Claim C4 counterexample: on the 1×2 image with labels `[0, 1]` and
`K = 2`, pixel `(0, 0)` is labeled 0 and has the pixel labeled 1 immediately
to its right, all labels are valid, both neighbor lists have fewer than 12
entries, yet cluster 1 does not appear in cluster 0's neighbor list — the
scan loops run over `i < H - 1 = 0` and never visit the only row. -/
theorem connectivity_adjacency_cex :
    specAdjacent 1 2 lblRow 0 1 ∧
    (∀ p, p < 1 * 2 → lblRow p < 2) ∧
    (0 : Nat) ≠ 1 ∧
    ((fast_slic_get_connectivity 1 2 2 lblRow).neighbors 0).length < 12 ∧
    ((fast_slic_get_connectivity 1 2 2 lblRow).neighbors 1).length < 12 ∧
    ¬ (1 ∈ (fast_slic_get_connectivity 1 2 2 lblRow).neighbors 0) := by
  refine ⟨⟨0, 0, by decide, by decide, by decide, Or.inl ⟨by decide, by decide⟩⟩,
    by decide, by decide, by decide, by decide, by decide⟩

/-- Label image of the adjacency witnesses: pixel 0 labeled 0, the rest 1. -/
def lblQuad : Nat → Nat := fun p => if p = 0 then 0 else 1

/-- Witness for `connectivity_adjacency_iff` on a 2×2 image. -/
theorem connectivity_adjacency_iff_witness :
    1 ∈ (fast_slic_get_connectivity 2 2 2 lblQuad).neighbors 0 :=
  (connectivity_adjacency_iff 2 2 2 lblQuad (by decide) (by decide) 0 1
      (by decide) (by decide) (by decide)).mpr
    ⟨0, 0, by decide, by decide, 1, Or.inl (by decide), by decide, by decide,
      by decide, Or.inl ⟨by decide, by decide⟩⟩

/-- Claim C8: in the builder's output, if both lists have room (fewer than
12 entries) and `B ∈ neighbors[A]`, then `A ∈ neighbors[B]`.  (The recording
is in fact unconditionally paired, so symmetry holds regardless of the room
hypotheses.) -/
theorem connectivity_symmetric (H W K : Nat) (a : Nat → Nat) (A B : Nat)
    (hA : ((fast_slic_get_connectivity H W K a).neighbors A).length < 12)
    (hB : ((fast_slic_get_connectivity H W K a).neighbors B).length < 12)
    (hm : B ∈ (fast_slic_get_connectivity H W K a).neighbors A) :
    A ∈ (fast_slic_get_connectivity H W K a).neighbors B :=
  (connectivity_inv H W K a).1 A B hm

/-- Witness for `connectivity_symmetric` on the 2×2 image. -/
theorem connectivity_symmetric_witness :
    0 ∈ (fast_slic_get_connectivity 2 2 2 lblQuad).neighbors 1 :=
  connectivity_symmetric 2 2 2 lblQuad 0 1 (by decide) (by decide) (by decide)

/-- State of the cap witness: every list already holds 12 neighbors. -/
def stFull : ConnState :=
  ⟨fun _ => [0, 1, 2, 3, 4, 5, 6, 7, 8, 9, 10, 11], fun _ => false⟩

/-- Claim C9: every neighbor list of the builder's output has length at most
12, and a candidate pair one of whose endpoints already has 12 recorded
neighbors is dropped without modifying the state. -/
theorem connectivity_degree_cap (H W K : Nat) (a : Nat → Nat) :
    (∀ A, ((fast_slic_get_connectivity H W K a).neighbors A).length ≤ 12) ∧
    (∀ (st : ConnState) (s t : Nat), t < K → s ≠ t →
      12 ≤ (st.neighbors s).length ∨ 12 ≤ (st.neighbors t).length →
      connStep K st (s, t) = st) := by
  constructor
  · exact (connectivity_inv H W K a).2.2.2.2
  · intro st s t ht hst hf
    unfold connStep
    dsimp only
    rw [if_pos ⟨ht, hst⟩, if_neg (by omega)]

/-- Witness for `connectivity_degree_cap`: the cap on the 2×2 instance and
the drop on a state whose lists are full. -/
theorem connectivity_degree_cap_witness :
    ((fast_slic_get_connectivity 2 2 2 lblQuad).neighbors 0).length ≤ 12 ∧
    connStep 2 stFull (0, 1) = stFull :=
  ⟨(connectivity_degree_cap 2 2 2 lblQuad).1 0,
    (connectivity_degree_cap 2 2 2 lblQuad).2 stFull 0 1 (by decide) (by decide)
      (Or.inl (by decide))⟩

/-- Modelled from the spec: `ceil_int` of `fast-slic-common-impl.hpp`, which
is not under `src/` — ceiling division, used to size the cell grid
(`nh = ceil_int(H, S)`, `nw = ceil_int(W, S)`). -/
def ceil_int (a b : Nat) : Nat := (a + b - 1) / b

/-- Grid cell side of the KNN builder:
`S = my_max((int)sqrt(H * W / K), 1)` (src/fast-slic.cpp:323). -/
def knnS (H W K : Nat) : Nat := max (Nat.sqrt (H * W / K)) 1

/-- Clusters filed into the grid cell `(cy, cx)` by the filing loop
(src/fast-slic.cpp:327-330): cluster `i` goes to cell `(y_i / S, x_i / S)`;
`push_back` in index order makes each cell's list the increasing list of its
cluster indices. -/
def s_cells (K S : Nat) (cl : Nat → Cluster) (cy cx : Nat) : List Nat :=
  (List.range K).filter (fun i => decide ((cl i).y / S = cy ∧ (cl i).x / S = cx))

/-- Cells scanned for a query whose own cell is `(ccy, ccx)`
(src/fast-slic.cpp:344-345): `cy` from `max(ccy - 3, 0)` to
`min(nh, ccy + 3)` exclusive, and likewise for `cx` — offsets `-3 .. +2`,
a 6×6 block before clipping, not the 7×7 block of the spec. -/
def knnScanCells (nh nw ccy ccx : Nat) : List (Nat × Nat) :=
  (List.range' (ccy - 3) (min nh (ccy + 3) - (ccy - 3))).flatMap fun cy =>
    (List.range' (ccx - 3) (min nw (ccx + 3) - (ccx - 3))).map fun cx => (cy, cx)

/-- Candidate clusters examined for query `i`: the clusters filed in the
scanned cells, the query itself excluded by identity
(`if (cluster_around == cluster) continue`, src/fast-slic.cpp:347). -/
def knnCandidates (K S nh nw : Nat) (cl : Nat → Cluster) (i : Nat) : List Nat :=
  (knnScanCells nh nw ((cl i).y / S) ((cl i).x / S)).flatMap fun cell =>
    (s_cells K S cl cell.1 cell.2).filter (fun j => decide (j ≠ i))

/-- Comparison of `std::pair<int, const Cluster*>`: lexicographic on the
distance, ties on the pointer, which for elements of one array is the index
order. -/
def pairLtb (a b : Nat × Nat) : Bool := a.1 < b.1 || (a.1 == b.1 && a.2 < b.2)

/-- Root of the max-heap (`heap.front()`): the lexicographically largest
element of the heap's contents. -/
def heapMax : List (Nat × Nat) → Nat × Nat
  | [] => (0, 0)
  | x :: xs => xs.foldl (fun a b => if pairLtb a b then b else a) x

/-- Fuel-indexed pop loop: remove the maximal element while the heap is
larger than `k` (`while (heap.size() > num_neighbors) { pop_heap; pop_back; }`,
src/fast-slic.cpp:353-356). -/
def popIter (k : Nat) : Nat → List (Nat × Nat) → List (Nat × Nat)
  | 0, l => l
  | fuel + 1, l => if l.length ≤ k then l else popIter k fuel (l.erase (heapMax l))

/-- The pop loop with enough fuel to terminate. -/
def popToSize (k : Nat) (l : List (Nat × Nat)) : List (Nat × Nat) :=
  popIter k l.length l

/-- One candidate's treatment by the query loop (src/fast-slic.cpp:348-356):
skip the candidate when the heap is nonempty and its maximum distance is at
most the candidate's distance — even when the heap holds fewer than `k`
elements — otherwise push and pop back down to size `k`. -/
def knnInsert (k : Nat) (h : List (Nat × Nat)) (e : Nat × Nat) : List (Nat × Nat) :=
  if h ≠ [] ∧ (heapMax h).1 ≤ e.1 then h else popToSize k (h ++ [e])

/-- The heap contents after query `i` has examined all its candidates, as
(L1 distance, cluster index) pairs. -/
def knnQuery (K S nh nw k : Nat) (cl : Nat → Cluster) (i : Nat) : List (Nat × Nat) :=
  (knnCandidates K S nh nw cl i).foldl
    (fun h j => knnInsert k h (ndist (cl j).x (cl i).x + ndist (cl j).y (cl i).y, j)) []

/-- Output record of the KNN builder: per-cluster neighbor counts and
neighbor lists of cluster numbers. -/
structure KnnConnectivity where
  num_neighbors : Nat → Nat
  neighbors : Nat → List Nat

/-- Embedding of `fast_slic_knn_connectivity` (src/fast-slic.cpp:321-371):
compute the grid geometry, run every query, and emit the heap sizes and the
heap elements' cluster numbers.  The output list order is the heap's array
order in the source; the embedding keeps arrival order, which carries the
same multiset of entries. -/
def fast_slic_knn_connectivity (H W K : Nat) (cl : Nat → Cluster)
    (num : Nat) : KnnConnectivity :=
  ⟨fun i => (knnQuery K (knnS H W K) (ceil_int H (knnS H W K))
      (ceil_int W (knnS H W K)) num cl i).length,
    fun i => (knnQuery K (knnS H W K) (ceil_int H (knnS H W K))
      (ceil_int W (knnS H W K)) num cl i).map (fun e => (cl e.2).number)⟩

/-- Helper: the heap root is one of the heap's elements. -/
lemma heapMax_mem {l : List (Nat × Nat)} (h : l ≠ []) : heapMax l ∈ l := by
  match l with
  | [] => exact absurd rfl h
  | x :: xs =>
    show xs.foldl (fun a b => if pairLtb a b then b else a) x ∈ x :: xs
    have haux : ∀ (ys : List (Nat × Nat)) (a : Nat × Nat),
        ys.foldl (fun a b => if pairLtb a b then b else a) a ∈ a :: ys := by
      intro ys
      induction ys with
      | nil => intro a; exact List.mem_cons_self _ _
      | cons b ys ih =>
        intro a
        rw [List.foldl_cons]
        rcases List.mem_cons.mp (ih (if pairLtb a b then b else a)) with hh | hh
        · rw [hh]
          by_cases hb : pairLtb a b = true
          · rw [if_pos hb]
            exact List.mem_cons_of_mem _ (List.mem_cons_self _ _)
          · rw [if_neg hb]
            exact List.mem_cons_self _ _
        · exact List.mem_cons_of_mem _ (List.mem_cons_of_mem _ hh)
    exact haux xs x

/-- Helper: the pop loop only removes elements. -/
lemma popIter_subset (k : Nat) :
    ∀ (fuel : Nat) (l : List (Nat × Nat)) (e : Nat × Nat),
      e ∈ popIter k fuel l → e ∈ l := by
  intro fuel
  induction fuel with
  | zero => intro l e h; exact h
  | succ fuel ih =>
    intro l e h
    unfold popIter at h
    by_cases hlen : l.length ≤ k
    · rwa [if_pos hlen] at h
    · rw [if_neg hlen] at h
      exact List.mem_of_mem_erase (ih _ e h)

/-- Helper: with enough fuel the pop loop reaches size at most `k`. -/
lemma popIter_length (k : Nat) :
    ∀ (fuel : Nat) (l : List (Nat × Nat)), l.length ≤ fuel + k →
      (popIter k fuel l).length ≤ k := by
  intro fuel
  induction fuel with
  | zero => intro l h; simpa using h
  | succ fuel ih =>
    intro l h
    unfold popIter
    by_cases hlen : l.length ≤ k
    · rwa [if_pos hlen]
    · rw [if_neg hlen]
      have hne : l ≠ [] := by
        intro hnil
        rw [hnil] at hlen
        exact hlen (by simp)
      have herase := List.length_erase_of_mem (heapMax_mem hne)
      exact ih _ (by omega)

/-- Helper: the pop loop's result has size at most `k`. -/
lemma popToSize_length (k : Nat) (l : List (Nat × Nat)) :
    (popToSize k l).length ≤ k :=
  popIter_length k l.length l (Nat.le_add_right _ _)

/-- Helper: inserting preserves the size bound `k`. -/
lemma knnInsert_length (k : Nat) (h : List (Nat × Nat)) (e : Nat × Nat)
    (hh : h.length ≤ k) : (knnInsert k h e).length ≤ k := by
  unfold knnInsert
  by_cases hc : h ≠ [] ∧ (heapMax h).1 ≤ e.1
  · rwa [if_pos hc]
  · rw [if_neg hc]
    exact popToSize_length k _

/-- Helper: elements after an insert come from the heap or are the new one. -/
lemma knnInsert_mem (k : Nat) (h : List (Nat × Nat)) (e e' : Nat × Nat)
    (hm : e' ∈ knnInsert k h e) : e' ∈ h ∨ e' = e := by
  unfold knnInsert at hm
  by_cases hc : h ≠ [] ∧ (heapMax h).1 ≤ e.1
  · rw [if_pos hc] at hm
    exact Or.inl hm
  · rw [if_neg hc] at hm
    have := popIter_subset k _ _ e' hm
    rcases List.mem_append.mp this with hh | hh
    · exact Or.inl hh
    · exact Or.inr (List.mem_singleton.mp hh)

/-- Helper: the final heap of a query holds at most `k` entries. -/
lemma knnQuery_length (K S nh nw k : Nat) (cl : Nat → Cluster) (i : Nat) :
    (knnQuery K S nh nw k cl i).length ≤ k := by
  unfold knnQuery
  have haux : ∀ (l : List Nat) (h : List (Nat × Nat)), h.length ≤ k →
      (l.foldl (fun h j =>
        knnInsert k h (ndist (cl j).x (cl i).x + ndist (cl j).y (cl i).y, j)) h).length ≤ k := by
    intro l
    induction l with
    | nil => intro h hh; exact hh
    | cons j l ih =>
      intro h hh
      rw [List.foldl_cons]
      exact ih _ (knnInsert_length k h _ hh)
  exact haux _ [] (by simp)

/-- Helper: every final heap entry's index was one of the query's candidates. -/
lemma knnQuery_mem (K S nh nw k : Nat) (cl : Nat → Cluster) (i : Nat)
    (e : Nat × Nat) (hm : e ∈ knnQuery K S nh nw k cl i) :
    e.2 ∈ knnCandidates K S nh nw cl i := by
  unfold knnQuery at hm
  have haux : ∀ (l : List Nat) (h : List (Nat × Nat)),
      (∀ e' ∈ h, e'.2 ∈ knnCandidates K S nh nw cl i) →
      (∀ j ∈ l, j ∈ knnCandidates K S nh nw cl i) →
      ∀ e' ∈ l.foldl (fun h j =>
        knnInsert k h (ndist (cl j).x (cl i).x + ndist (cl j).y (cl i).y, j)) h,
        e'.2 ∈ knnCandidates K S nh nw cl i := by
    intro l
    induction l with
    | nil => intro h hh _ e' he'; exact hh e' he'
    | cons j l ih =>
      intro h hh hl e' he'
      rw [List.foldl_cons] at he'
      refine ih _ ?_ (fun j' hj' => hl j' (List.mem_cons_of_mem _ hj')) e' he'
      intro e'' he''
      rcases knnInsert_mem k h _ e'' he'' with hcase | hcase
      · exact hh e'' hcase
      · rw [hcase]
        exact hl j (List.mem_cons_self _ _)
  exact haux _ [] (fun e' he' => absurd he' (List.not_mem_nil _)) (fun j hj => hj) e hm

/-- Helper: the candidate list of a query is exactly the other clusters
filed in the scanned block of cells. -/
lemma knnCandidates_mem (K S nh nw : Nat) (cl : Nat → Cluster) (i j : Nat) :
    j ∈ knnCandidates K S nh nw cl i ↔
      (j < K ∧ j ≠ i ∧
        (cl i).y / S - 3 ≤ (cl j).y / S ∧ (cl j).y / S < min nh ((cl i).y / S + 3) ∧
        (cl i).x / S - 3 ≤ (cl j).x / S ∧ (cl j).x / S < min nw ((cl i).x / S + 3)) := by
  unfold knnCandidates knnScanCells s_cells
  simp only [List.mem_flatMap, List.mem_map, List.mem_filter, List.mem_range,
    List.mem_range'_1, decide_eq_true_iff]
  constructor
  · rintro ⟨cell, hcell, hj⟩
    obtain ⟨cy, ⟨hcy1, hcy2⟩, cx, ⟨hcx1, hcx2⟩, rfl⟩ := hcell
    obtain ⟨⟨hjK, hy, hx⟩, hji⟩ := hj
    have hy2 : (cl j).y / S = cy := hy
    have hx2 : (cl j).x / S = cx := hx
    refine ⟨hjK, hji, by omega, by omega, by omega, by omega⟩
  · rintro ⟨hjK, hji, h1, h2, h3, h4⟩
    exact ⟨((cl j).y / S, (cl j).x / S),
      ⟨(cl j).y / S, ⟨h1, by omega⟩, (cl j).x / S, ⟨h3, by omega⟩, rfl⟩,
      ⟨⟨hjK, rfl, rfl⟩, hji⟩⟩

/-- Claim C6 (amended): for every query, the candidates examined are exactly
the other clusters filed in the block of grid cells at offsets `-3 .. +2` of
the query's own cell in each axis (a 6×6 block), clipped to the grid, and the
max-heap the query maintains holds at most `k` entries.  (The claim's 7×7
block is refuted by `knn_window_cex`: the upper cell bound `ccy + 3` /
`ccx + 3` is exclusive.) -/
theorem knn_window_charac (K S nh nw : Nat) (cl : Nat → Cluster) (i j k : Nat) :
    (j ∈ knnCandidates K S nh nw cl i ↔
      (j < K ∧ j ≠ i ∧
        (cl i).y / S - 3 ≤ (cl j).y / S ∧ (cl j).y / S < min nh ((cl i).y / S + 3) ∧
        (cl i).x / S - 3 ≤ (cl j).x / S ∧ (cl j).x / S < min nw ((cl i).x / S + 3))) ∧
    (knnQuery K S nh nw k cl i).length ≤ k :=
  ⟨knnCandidates_mem K S nh nw cl i j, knnQuery_length K S nh nw k cl i⟩

/-- Cells of the 7×7 block the claim describes: offsets `-3 .. +3` of the
query's cell in each axis, clipped to the grid.  Stated from the claim's
words for comparison with `knnScanCells`. -/
def knnScanCells7 (nh nw ccy ccx : Nat) : List (Nat × Nat) :=
  (List.range' (ccy - 3) (min nh (ccy + 4) - (ccy - 3))).flatMap fun cy =>
    (List.range' (ccx - 3) (min nw (ccx + 4) - (ccx - 3))).map fun cx => (cy, cx)

/-- Candidates the claim's 7×7 block would yield. -/
def knnCandidates7 (K S nh nw : Nat) (cl : Nat → Cluster) (i : Nat) : List Nat :=
  (knnScanCells7 nh nw ((cl i).y / S) ((cl i).x / S)).flatMap fun cell =>
    (s_cells K S cl cell.1 cell.2).filter (fun j => decide (j ≠ i))

/-- Cluster layout of the window counterexample: cluster 0 at `(0, 0)`,
cluster 1 at `(0, 7)` of a 2×8 image. -/
def pairCl : Nat → Cluster :=
  fun i => if i = 0 then ⟨0, 0, 0, 0, 0, 0, 0⟩ else ⟨1, 0, 7, 0, 0, 0, 0⟩

/-- Claim C6 counterexample: on the 2×8 image with `K = 2` the grid has
`S = 2` and `nw = 4`; cluster 1 sits in cell `(0, 3)`, exactly 3 cells to the
right of cluster 0's cell `(0, 0)`, hence inside the claim's 7×7 block, yet
the source scans only cells with `cx < min(nw, 0 + 3)` and cluster 1 is never
a candidate: the code's candidate list is empty while the 7×7 block's
candidate list is `[1]`, and `fast_slic_knn_connectivity` returns no
neighbors for cluster 0. -/
theorem knn_window_cex :
    knnS 2 8 2 = 2 ∧ ceil_int 2 2 = 1 ∧ ceil_int 8 2 = 4 ∧
    (pairCl 1).y / 2 = (pairCl 0).y / 2 ∧ (pairCl 1).x / 2 = (pairCl 0).x / 2 + 3 ∧
    knnCandidates 2 2 1 4 pairCl 0 = [] ∧
    knnCandidates7 2 2 1 4 pairCl 0 = [1] ∧
    (fast_slic_knn_connectivity 2 8 2 pairCl 1).num_neighbors 0 = 0 := by
  have hS : knnS 2 8 2 = 2 := by unfold knnS; norm_num
  refine ⟨hS, by decide, by decide, by decide, by decide, by decide, by decide, ?_⟩
  have hproj : (fast_slic_knn_connectivity 2 8 2 pairCl 1).num_neighbors 0 =
      (knnQuery 2 (knnS 2 8 2) (ceil_int 2 (knnS 2 8 2)) (ceil_int 8 (knnS 2 8 2))
        1 pairCl 0).length := rfl
  rw [hproj, hS]
  decide

/-- Cluster layout of the KNN-size failing input: `K = 9` centroids on the
regular 3×3 grid of a 9×9 image (centroid `i` at
`(1 + 3 * (i / 3), 1 + 3 * (i % 3))`), the layout of the claim's own
exemplar. -/
def gridCl : Nat → Cluster :=
  fun i => ⟨i, 1 + 3 * (i / 3), 1 + 3 * (i % 3), 0, 0, 0, 0⟩

/-- Claim C5 evaluation at the failing input: with `num_neighbors = 4` the
corner cluster 0 receives only 1 neighbor, not `min(4, 9 - 1) = 4`.  The
query loop skips any candidate whose distance is at least the current heap
maximum even while the heap holds fewer than `num_neighbors` entries
(src/fast-slic.cpp:349), so after the nearest candidate (cluster 1 at L1
distance 3) arrives, every remaining candidate (distances 3..12) is
discarded. -/
theorem knn_size_shortfall :
    (fast_slic_knn_connectivity 9 9 9 gridCl 4).num_neighbors 0 = 1 ∧
    min 4 (9 - 1) = 4 ∧
    (fast_slic_knn_connectivity 9 9 9 gridCl 4).num_neighbors 4 = 4 := by
  have hS : knnS 9 9 9 = 3 := by unfold knnS; norm_num
  have hproj : ∀ i, (fast_slic_knn_connectivity 9 9 9 gridCl 4).num_neighbors i =
      (knnQuery 9 (knnS 9 9 9) (ceil_int 9 (knnS 9 9 9)) (ceil_int 9 (knnS 9 9 9))
        4 gridCl i).length := fun i => rfl
  refine ⟨?_, by decide, ?_⟩
  · rw [hproj 0, hS]
    decide
  · rw [hproj 4, hS]
    decide

/-- Claim C10: a query's neighbor list never contains the query's own
cluster number, provided the cluster numbers of distinct clusters differ
(the data model's invariant `number = index`): the query is excluded from
its own candidates by identity, even when other clusters share its centroid
coordinates. -/
theorem knn_excludes_self (H W K : Nat) (cl : Nat → Cluster) (k i : Nat)
    (hnum : ∀ j, j < K → j ≠ i → (cl j).number ≠ (cl i).number) :
    (cl i).number ∉ (fast_slic_knn_connectivity H W K cl k).neighbors i := by
  intro hmem
  have hmap : (fast_slic_knn_connectivity H W K cl k).neighbors i =
      (knnQuery K (knnS H W K) (ceil_int H (knnS H W K))
        (ceil_int W (knnS H W K)) k cl i).map (fun e => (cl e.2).number) := rfl
  rw [hmap] at hmem
  obtain ⟨e, he, heq⟩ := List.mem_map.mp hmem
  have hcand := knnQuery_mem _ _ _ _ k cl i e he
  rw [knnCandidates_mem] at hcand
  exact hnum e.2 hcand.1 hcand.2.1 heq

/-- Cluster layout of the self-exclusion witness: two clusters with the same
centroid `(0, 0)` and numbers 0 and 1. -/
def dupCl : Nat → Cluster :=
  fun i => if i = 0 then ⟨0, 0, 0, 0, 0, 0, 0⟩ else ⟨1, 0, 0, 0, 0, 0, 0⟩

/-- Witness for `knn_excludes_self`: two clusters sharing the centroid;
cluster 0's list is `[1]` and does not contain its own number. -/
theorem knn_excludes_self_witness :
    (dupCl 0).number ∉ (fast_slic_knn_connectivity 1 1 2 dupCl 1).neighbors 0 :=
  knn_excludes_self 1 1 2 dupCl 1 0 (by decide)

end FastSlic
